import Mathlib

/-!
Verification of the consensus-decentralization repository's core:
concentration metrics (Gini, HHI), pool-link chain resolution,
timeframe parsing, per-entity block-count persistence, and the
Tezos / Cardano entity classifiers.

Every definition is a shallow embedding of the corresponding Python
function, translated directly from the source files under
`consensus_decentralization/` and `src/mappings/`.  Block counts are
embedded as `Int` (Python ints) and metric results as `ℚ` (the float
arithmetic the metrics perform on integer data is exact for the
quantities compared here).
-/

/-- Minimum of a list of integers, embedding `np.amin` on a non-empty
array; the `[]` case is arbitrary (numpy raises there, and all uses
are guarded by non-emptiness). -/
def listMin : List Int → Int
  | [] => 0
  | [a] => a
  | a :: b :: t => min a (listMin (b :: t))

/-- `weightedSum [x₁, …, xₙ] = ∑ i * xᵢ` with 1-based positions,
the `np.sum(index * array)` building block of `gini`. -/
def weightedSum : List Int → Int
  | [] => 0
  | a :: t => a + t.sum + weightedSum t

/-- The array manipulated by `gini` (gini.py, lines 23-27): shift all
values by the minimum when the minimum is negative, then sort ascending. -/
def sortedShifted (l : List Int) : List Int :=
  let m := listMin l
  let shifted := if m < 0 then l.map (fun x => x - m) else l
  shifted.insertionSort (· ≤ ·)

/-- Numerator `np.sum((2 * index - n - 1) * array)` of gini.py line 30,
rewritten through `weightedSum`: `∑ (2i - n - 1) xᵢ = 2∑ i·xᵢ - (n+1)∑ xᵢ`. -/
def giniNumerator (l : List Int) : Int :=
  2 * weightedSum (sortedShifted l) -
    ((sortedShifted l).length + 1) * (sortedShifted l).sum

/-- Denominator `n * np.sum(array)` of gini.py line 30. -/
def giniDenom (l : List Int) : Int :=
  ((sortedShifted l).length : Int) * (sortedShifted l).sum

/-- `gini(array)` from gini.py (lines 16-30): the Gini coefficient of a
distribution.  Exact rational division embeds the float division. -/
def gini (l : List Int) : ℚ :=
  (giniNumerator l : ℚ) / (giniDenom l : ℚ)

/-- `compute_gini(blocks_per_entity)` from gini.py (lines 4-13): `none`
when the values sum to zero, otherwise the Gini coefficient of the
list of values. -/
def compute_gini (l : List Int) : Option ℚ :=
  if l.sum = 0 then none else some (gini l)

/-- `compute_hhi(blocks_per_entity)` from herfindahl_hirschman_index.py:
`none` when the values sum to zero, otherwise
`∑ (xᵢ / total * 100)²` over the values. -/
def compute_hhi (l : List Int) : Option ℚ :=
  if l.sum = 0 then none
  else some ((l.map (fun x => ((x : ℚ) / (l.sum : ℚ) * 100) ^ 2)).sum)

/- ### Structural lemmas about the gini building blocks -/

theorem listMin_le : ∀ (l : List Int), ∀ x ∈ l, listMin l ≤ x
  | [] => by simp
  | [a] => by simp [listMin]
  | a :: b :: t => by
    intro x hx
    rcases List.mem_cons.mp hx with h | h
    · subst h
      exact min_le_left _ _
    · exact le_trans (min_le_right _ _) (listMin_le (b :: t) x h)

theorem length_mul_le_sum (a : Int) (t : List Int) (h : ∀ x ∈ t, a ≤ x) :
    (t.length : Int) * a ≤ t.sum := by
  induction t with
  | nil => simp
  | cons b t ih =>
    have hb := h b (by simp)
    have ht := ih (fun x hx => h x (List.mem_cons_of_mem _ hx))
    simp only [List.length_cons, List.sum_cons]
    push_cast
    nlinarith [ht, hb]

theorem weightedSum_le (l : List Int) (h : ∀ x ∈ l, 0 ≤ x) :
    weightedSum l ≤ (l.length : Int) * l.sum := by
  induction l with
  | nil => simp [weightedSum]
  | cons a t ih =>
    have ha := h a (by simp)
    have ht : ∀ x ∈ t, (0 : Int) ≤ x := fun x hx => h x (List.mem_cons_of_mem _ hx)
    have iht := ih ht
    have hsum : (0 : Int) ≤ t.sum := List.sum_nonneg ht
    have hn : (0 : Int) ≤ t.length := Int.ofNat_nonneg _
    simp only [weightedSum, List.length_cons, List.sum_cons]
    push_cast
    nlinarith [iht, mul_nonneg hn ha]

theorem two_weightedSum_ge (l : List Int) (h : l.Sorted (· ≤ ·)) :
    ((l.length : Int) + 1) * l.sum ≤ 2 * weightedSum l := by
  induction l with
  | nil => simp [weightedSum]
  | cons a t ih =>
    rw [List.sorted_cons] at h
    have iht := ih h.2
    have hlen := length_mul_le_sum a t h.1
    simp only [weightedSum, List.length_cons, List.sum_cons]
    push_cast
    nlinarith [iht, hlen]

theorem sum_pos_of_mem (l : List Int) (y : Int) (hy : y ∈ l) (hypos : 0 < y)
    (h : ∀ x ∈ l, 0 ≤ x) : 0 < l.sum := by
  induction l with
  | nil => cases hy
  | cons a t ih =>
    have hts : (0 : Int) ≤ t.sum :=
      List.sum_nonneg (fun x hx => h x (List.mem_cons_of_mem _ hx))
    have ha := h a (by simp)
    rcases List.mem_cons.mp hy with hya | hyt
    · subst hya
      simp only [List.sum_cons]
      linarith
    · have := ih hyt (fun x hx => h x (List.mem_cons_of_mem _ hx))
      simp only [List.sum_cons]
      linarith

theorem sortedShifted_nonneg (l : List Int) : ∀ x ∈ sortedShifted l, 0 ≤ x := by
  intro x hx
  simp only [sortedShifted, List.mem_insertionSort] at hx
  by_cases h : listMin l < 0
  · rw [if_pos h] at hx
    obtain ⟨y, hy, rfl⟩ := List.mem_map.mp hx
    have := listMin_le l y hy
    linarith
  · rw [if_neg h] at hx
    have := listMin_le l x hx
    push_neg at h
    linarith

theorem sortedShifted_sorted (l : List Int) : (sortedShifted l).Sorted (· ≤ ·) :=
  List.sorted_insertionSort _ _

theorem sortedShifted_length (l : List Int) : (sortedShifted l).length = l.length := by
  simp only [sortedShifted, List.length_insertionSort]
  split
  · simp
  · rfl

theorem sortedShifted_sum_pos (l : List Int) (h2 : l.sum ≠ 0)
    (h3 : 0 ≤ listMin l ∨ ∃ x ∈ l, listMin l < x) :
    0 < (sortedShifted l).sum := by
  by_cases h : listMin l < 0
  · have hx : ∃ x ∈ l, listMin l < x := by
      rcases h3 with h0 | hx
      · linarith
      · exact hx
    obtain ⟨x, hxl, hxgt⟩ := hx
    have hmem : x - listMin l ∈ sortedShifted l := by
      simp only [sortedShifted, List.mem_insertionSort, if_pos h]
      exact List.mem_map.mpr ⟨x, hxl, rfl⟩
    exact sum_pos_of_mem _ _ hmem (by linarith) (sortedShifted_nonneg l)
  · have hsum : (sortedShifted l).sum = l.sum := by
      simp only [sortedShifted, if_neg h]
      exact (List.perm_insertionSort _ _).sum_eq
    have hnn : (0 : Int) ≤ l.sum := by
      apply List.sum_nonneg
      intro x hx
      have := listMin_le l x hx
      push_neg at h
      linarith
    rw [hsum]
    omega

theorem giniDenom_pos (l : List Int) (h1 : l ≠ []) (h2 : l.sum ≠ 0)
    (h3 : 0 ≤ listMin l ∨ ∃ x ∈ l, listMin l < x) : 0 < giniDenom l := by
  have hlen : 0 < (sortedShifted l).length := by
    rw [sortedShifted_length]
    exact List.length_pos.mpr h1
  have hsum := sortedShifted_sum_pos l h2 h3
  unfold giniDenom
  have : (0 : Int) < ((sortedShifted l).length : Int) := by exact_mod_cast hlen
  exact mul_pos this hsum

theorem giniNumerator_nonneg (l : List Int) : 0 ≤ giniNumerator l := by
  have := two_weightedSum_ge (sortedShifted l) (sortedShifted_sorted l)
  unfold giniNumerator
  linarith

theorem giniNumerator_le_giniDenom (l : List Int) : giniNumerator l ≤ giniDenom l := by
  have hW := weightedSum_le (sortedShifted l) (sortedShifted_nonneg l)
  have hS : (0 : Int) ≤ (sortedShifted l).sum :=
    List.sum_nonneg (sortedShifted_nonneg l)
  unfold giniNumerator giniDenom
  nlinarith [hW, hS]

/-- C1 counterexample: `compute_gini` on the distribution `[10, 0, 0, 0]`
returns `3/4`, not `1.0` as the claim states. -/
theorem compute_gini_single_holder_not_one :
    compute_gini [10, 0, 0, 0] = some (3 / 4) ∧ (3 / 4 : ℚ) ≠ 1 := by
  constructor
  · norm_num [compute_gini, gini, giniNumerator, giniDenom, sortedShifted, weightedSum,
      listMin, List.insertionSort, List.orderedInsert]
  · norm_num

/-- C1 (amended): for the input distribution `[10, 0, 0, 0]` (one entity
holds everything), `compute_gini` returns `0.75 = (n-1)/n` for `n = 4`,
the maximal value the formula can attain on four entries. -/
theorem compute_gini_single_holder_value :
    compute_gini [10, 0, 0, 0] = some (3 / 4) := by
  norm_num [compute_gini, gini, giniNumerator, giniDenom, sortedShifted, weightedSum,
    listMin, List.insertionSort, List.orderedInsert]

/-- C4 counterexample: the distribution `[-1, -1]` passes the
`sum == 0` guard of `compute_gini` (its sum is `-2`), yet after the
negative-shift every value becomes `0`, so the denominator
`n * sum(x)` of the gini formula is `0`, refuting the claim that the
denominator is nonzero for every guard-passing input. -/
theorem compute_gini_denominator_zero :
    (compute_gini [(-1 : Int), -1]).isSome = true ∧ giniDenom [(-1 : Int), -1] = 0 := by
  constructor
  · decide
  · decide

/-- C4 (amended): for every non-empty counts distribution whose sum is
nonzero and whose values are not all equal to one negative number
(equivalently: the minimum is non-negative, or some value exceeds the
minimum), the denominator `n * sum(x)` after the negative-shift and
sort is positive and `compute_gini` returns a value in `[0, 1]`. -/
theorem compute_gini_unit_interval (l : List Int) (h1 : l ≠ []) (h2 : l.sum ≠ 0)
    (h3 : 0 ≤ listMin l ∨ ∃ x ∈ l, listMin l < x) :
    0 < giniDenom l ∧ compute_gini l = some (gini l) ∧ 0 ≤ gini l ∧ gini l ≤ 1 := by
  have hD := giniDenom_pos l h1 h2 h3
  have hnum := giniNumerator_nonneg l
  have hle := giniNumerator_le_giniDenom l
  have hDq : (0 : ℚ) < (giniDenom l : ℚ) := by exact_mod_cast hD
  refine ⟨hD, by simp [compute_gini, h2], ?_, ?_⟩
  · apply div_nonneg
    · exact_mod_cast hnum
    · linarith
  · rw [gini, div_le_one hDq]
    exact_mod_cast hle

/-- Witness for C4: the distribution `[3, 1]` satisfies the hypotheses
and its Gini coefficient lies in `[0, 1]`. -/
theorem compute_gini_unit_interval_witness :
    0 < giniDenom [3, 1] ∧ compute_gini [3, 1] = some (gini [3, 1]) ∧
      0 ≤ gini [3, 1] ∧ gini [3, 1] ≤ 1 :=
  compute_gini_unit_interval [3, 1] (by decide) (by decide) (Or.inl (by decide))

/-- C7: `compute_hhi` implements `∑ (xᵢ / total * 100)²` with a `none`
guard exactly when the total is zero; in particular it returns `10000`
on `[100]`, `5000` on `[50, 50]` and `2500` on `[25, 25, 25, 25]`. -/
theorem compute_hhi_reference_values :
    compute_hhi [100] = some 10000 ∧ compute_hhi [50, 50] = some 5000 ∧
      compute_hhi [25, 25, 25, 25] = some 2500 ∧
      ∀ l : List Int, (compute_hhi l = none ↔ l.sum = 0) := by
  refine ⟨by norm_num [compute_hhi], by norm_num [compute_hhi], by norm_num [compute_hhi], ?_⟩
  intro l
  by_cases h : l.sum = 0 <;> simp [compute_hhi, h]

/-- C10: `compute_gini` and `compute_hhi` return `none` exactly when the
values sum to zero; in particular both return `none` on the mixed-sign
distribution `[-1, 1]`, whose values are not all zero. -/
theorem metrics_none_iff_sum_zero :
    (∀ l : List Int, (compute_gini l = none ↔ l.sum = 0) ∧
        (compute_hhi l = none ↔ l.sum = 0)) ∧
      compute_gini [(-1 : Int), 1] = none ∧ compute_hhi [(-1 : Int), 1] = none ∧
      ((-1 : Int) ≠ 0 ∧ (1 : Int) ≠ 0) := by
  refine ⟨?_, by decide, ?_, by decide⟩
  · intro l
    constructor
    · by_cases h : l.sum = 0 <;> simp [compute_gini, h]
    · by_cases h : l.sum = 0 <;> simp [compute_hhi, h]
  · show compute_hhi [(-1 : Int), 1] = none
    simp [compute_hhi]

/- ### Chain resolution of pool links (helper.py, get_pool_links, lines 126-138) -/

/-- Association-list lookup, embedding a Python dict read
(`pool_links[k]` / `k in pool_links.keys()`); keys are unique. -/
def lookupStr : List (String × String) → String → Option String
  | [], _ => none
  | (a, b) :: t, k => if a = k then some b else lookupStr t k

/-- Outcome of the inner `while child in pool_links.keys()` loop of
`get_pool_links`.  `fuelOut` marks that the loop has not finished
within the given fuel; `∀ fuel, … = fuelOut` embeds non-termination. -/
inductive ChainResult where
  | ok (owner : String)
  | circular (parent child : String)
  | fuelOut
deriving DecidableEq

/-- The inner while loop of `get_pool_links` (helper.py, lines 128-136):
follow `child` through the map, stopping at a non-key (`ok`), at a
self-mapping name (`ok`, the base case checked first), or raising
`AssertionError` when the next name equals the original `parent`
(`circular`). -/
def followChain (links : List (String × String)) (parent : String) :
    String → Nat → ChainResult
  | _, 0 => .fuelOut
  | child, fuel + 1 =>
    match lookupStr links child with
    | none => .ok child
    | some next =>
      if next = child then .ok child
      else if next = parent then .circular parent child
      else followChain links parent next fuel

/-- In-place value update of a Python dict entry
(`pool_links[parent] = child`), preserving key order. -/
def updateStr (links : List (String × String)) (k v : String) :
    List (String × String) :=
  links.map (fun p => if p.1 = k then (k, v) else p)

/-- Outcome of the whole chain-resolution pass of `get_pool_links`. -/
inductive ResolveResult where
  | ok (links : List (String × String))
  | circular (parent child : String)
  | fuelOut
deriving DecidableEq

/-- The `for parent, child in pool_links.items()` loop of
`get_pool_links` (helper.py, lines 128-137): each key's value is
collapsed through `followChain` against the current state of the map,
then written back. -/
def resolveLoop : List String → List (String × String) → Nat → ResolveResult
  | [], links, _ => .ok links
  | parent :: rest, links, fuel =>
    match lookupStr links parent with
    | none => resolveLoop rest links fuel
    | some child =>
      match followChain links parent child fuel with
      | .ok owner => resolveLoop rest (updateStr links parent owner) fuel
      | .circular p c => .circular p c
      | .fuelOut => .fuelOut

/-- Chain resolution over the selected claims of `get_pool_links`:
iterate over the dict's keys in insertion order. -/
def resolve_chain_links (links : List (String × String)) (fuel : Nat) : ResolveResult :=
  resolveLoop (links.map Prod.fst) links fuel

/-- C2 counterexample: the claim set `{A→B, B→C, C→B}` contains a cycle
(`B`, `C` revisit each other without a fixed point), yet chain
resolution neither raises the circular-ownership error nor returns:
with fuel 100 it is still running. -/
theorem resolve_links_cycle_nontermination :
    resolve_chain_links [("A", "B"), ("B", "C"), ("C", "B")] 100 = .fuelOut := by
  decide

/-- C2 (amended): a cycle whose chain revisits the original claimant
(e.g. any two-cycle `a→b, b→a`) makes `get_pool_links` raise the
circular-ownership error, but a cycle entered from an outside claimant
without revisiting it (e.g. `a→b, b→c, c→b`, processed from `a`) makes
the inner loop run forever: resolution neither returns nor raises at
any fuel. -/
theorem resolve_links_cycle_behavior (a b c : String)
    (hab : a ≠ b) (hbc : b ≠ c) (hac : a ≠ c) :
    (∀ fuel, resolve_chain_links [(a, b), (b, a)] (fuel + 1) =
        .circular a b) ∧
    (∀ fuel, resolve_chain_links [(a, b), (b, c), (c, b)] fuel = .fuelOut) := by
  constructor
  · intro fuel
    have h1 : lookupStr [(a, b), (b, a)] a = some b := by simp [lookupStr]
    have h2 : lookupStr [(a, b), (b, a)] b = some a := by simp [lookupStr, hab]
    have h3 : followChain [(a, b), (b, a)] a b (fuel + 1) = .circular a b := by
      simp only [followChain, h2]
      rw [if_neg hab]
      simp
    simp only [resolve_chain_links, List.map, resolveLoop, h1, h3]
  · have hlb : lookupStr [(a, b), (b, c), (c, b)] b = some c := by
      simp [lookupStr, hab]
    have hlc : lookupStr [(a, b), (b, c), (c, b)] c = some b := by
      simp [lookupStr, hac, hbc]
    have key : ∀ fuel, followChain [(a, b), (b, c), (c, b)] a b fuel = .fuelOut ∧
        followChain [(a, b), (b, c), (c, b)] a c fuel = .fuelOut := by
      intro fuel
      induction fuel with
      | zero => exact ⟨rfl, rfl⟩
      | succ n ih =>
        constructor
        · simp only [followChain, hlb]
          rw [if_neg (Ne.symm hbc), if_neg (Ne.symm hac)]
          exact ih.2
        · simp only [followChain, hlc]
          rw [if_neg hbc, if_neg (Ne.symm hab)]
          exact ih.1
    intro fuel
    have hla : lookupStr [(a, b), (b, c), (c, b)] a = some b := by simp [lookupStr]
    simp only [resolve_chain_links, List.map, resolveLoop, hla, key fuel]

/-- Witness for C2 (amended): at the concrete names `A`, `B`, `C`, the
two-cycle raises while the off-origin cycle is still running at fuel 7. -/
theorem resolve_links_cycle_behavior_witness :
    resolve_chain_links [("A", "B"), ("B", "A")] 5 = .circular "A" "B" ∧
      resolve_chain_links [("A", "B"), ("B", "C"), ("C", "B")] 7 = .fuelOut :=
  ⟨(resolve_links_cycle_behavior "A" "B" "C" (by decide) (by decide) (by decide)).1 4,
   (resolve_links_cycle_behavior "A" "B" "C" (by decide) (by decide) (by decide)).2 7⟩

/-- C5: a name that maps to itself is a fixed point: chain-following
stops on it immediately (the `next_child == child` base case runs
before the cycle check), and resolving a self-claim `a→a` succeeds
without the circular-ownership error, leaving `a` mapped to itself. -/
theorem self_link_fixed_point :
    (∀ (links : List (String × String)) (parent a : String) (fuel : Nat),
        lookupStr links a = some a →
        followChain links parent a (fuel + 1) = .ok a) ∧
      ∀ (a : String) (fuel : Nat),
        resolve_chain_links [(a, a)] (fuel + 1) = .ok [(a, a)] := by
  have h1 : ∀ (links : List (String × String)) (parent a : String) (fuel : Nat),
      lookupStr links a = some a → followChain links parent a (fuel + 1) = .ok a := by
    intro links parent a fuel h
    simp only [followChain, h]
    simp
  refine ⟨h1, ?_⟩
  intro a fuel
  have hla : lookupStr [(a, a)] a = some a := by simp [lookupStr]
  simp only [resolve_chain_links, List.map, resolveLoop, hla,
    h1 [(a, a)] a a fuel hla, updateStr]
  simp

/-- Witness for C5: the self-claim `A→A` resolves to itself. -/
theorem self_link_fixed_point_witness :
    followChain [("A", "A")] "P" "A" 3 = .ok "A" ∧
      resolve_chain_links [("A", "A")] 3 = .ok [("A", "A")] :=
  ⟨self_link_fixed_point.1 [("A", "A")] "P" "A" 2 (by decide),
   self_link_fixed_point.2 "A" 2⟩

/- ### Timeframe utilities (helper.py, lines 36-55) -/

/-- A timeframe string of shape `YYYY`, `YYYY-MM` or `YYYY-MM-DD`,
embedded structurally: a day is present only when a month is. -/
structure Timeframe where
  year : Nat
  month : Option Nat
  day : Option Nat

/-- Leap-year test of the Gregorian calendar, as used by Python's
`calendar.monthrange`. -/
def isLeapYear (y : Nat) : Bool :=
  y % 4 == 0 && (y % 100 != 0 || y % 400 == 0)

/-- Number of days of a month, `calendar.monthrange(y, m)[1]`. -/
def daysInMonth (y m : Nat) : Nat :=
  if m = 2 then (if isLeapYear y then 29 else 28)
  else if m = 4 ∨ m = 6 ∨ m = 9 ∨ m = 11 then 30
  else 31

/-- Validity of a timeframe, embedding the check that
`datetime.date.fromisoformat` performs on the padded string: month in
`1..12` and, when given, day in `1..(days of that month)`. -/
def validTimeframe : Timeframe → Bool
  | ⟨_, none, none⟩ => true
  | ⟨_, none, some _⟩ => false
  | ⟨_, some m, none⟩ => 1 ≤ m && m ≤ 12
  | ⟨y, some m, some d⟩ => 1 ≤ m && m ≤ 12 && 1 ≤ d && d ≤ daysInMonth y m

/-- `get_timeframe_beginning` (helper.py, lines 36-42): the padding
`ljust(10, 'x').replace('xxx', '-01')` defaults a missing month and a
missing day to `01`. -/
def get_timeframe_beginning (tf : Timeframe) : Nat × Nat × Nat :=
  (tf.year, tf.month.getD 1, tf.day.getD 1)

/-- `get_timeframe_end` (helper.py, lines 45-55): a missing month
defaults to `12`, a missing day to `calendar.monthrange`'s day count of
the resolved month. -/
def get_timeframe_end (tf : Timeframe) : Nat × Nat × Nat :=
  let m := tf.month.getD 12
  (tf.year, m, tf.day.getD (daysInMonth tf.year m))

/-- Chronological order on `datetime.date` values, which compare
lexicographically on (year, month, day). -/
def dateLe (a b : Nat × Nat × Nat) : Prop :=
  a.1 < b.1 ∨ (a.1 = b.1 ∧ (a.2.1 < b.2.1 ∨ (a.2.1 = b.2.1 ∧ a.2.2 ≤ b.2.2)))

instance (a b : Nat × Nat × Nat) : Decidable (dateLe a b) := by
  unfold dateLe
  infer_instance

theorem one_le_daysInMonth (y m : Nat) : 1 ≤ daysInMonth y m := by
  unfold daysInMonth
  split
  · split <;> omega
  · split <;> omega

/-- C6: for every valid timeframe (year, year-month, or
year-month-day, with the day bounded by the length of the month —
29 for February of a leap year), the first day computed by
`get_timeframe_beginning` is at most the last day computed by
`get_timeframe_end`. -/
theorem timeframe_beginning_le_end (tf : Timeframe)
    (h : validTimeframe tf = true) :
    dateLe (get_timeframe_beginning tf) (get_timeframe_end tf) := by
  obtain ⟨y, m, d⟩ := tf
  cases m with
  | none =>
    cases d with
    | none =>
      simp [get_timeframe_beginning, get_timeframe_end, dateLe]
    | some d => simp [validTimeframe] at h
  | some m =>
    cases d with
    | none =>
      have := one_le_daysInMonth y m
      simp [get_timeframe_beginning, get_timeframe_end, dateLe]
      omega
    | some d =>
      simp [get_timeframe_beginning, get_timeframe_end, dateLe]

/-- Witness for C6: the timeframe `2024-02` resolves to the interval
from `2024-02-01` to `2024-02-29` (February of a leap year). -/
theorem timeframe_beginning_le_end_witness :
    validTimeframe ⟨2024, some 2, none⟩ = true ∧
      get_timeframe_end ⟨2024, some 2, none⟩ = (2024, 2, 29) ∧
      dateLe (get_timeframe_beginning ⟨2024, some 2, none⟩)
        (get_timeframe_end ⟨2024, some 2, none⟩) :=
  ⟨by decide, by decide, timeframe_beginning_le_end ⟨2024, some 2, none⟩ (by decide)⟩

/- ### Tezos classifier (mappings/tezos_mapping.py, lines 21-40) -/

/-- Modelled from the spec: `DefaultMapping.get_reward_addresses` is
called by `TezosMapping.map_from_known_addresses` but its file
(`mappings/default_mapping.py`) is not under src/.  Per the spec, it
yields `none` when the block carries no reward addresses at all, and
otherwise the effective address list, i.e. the raw list with every
address belonging to the project's special addresses removed. -/
def get_reward_addresses (special : List String) (raw : Option (List String)) :
    Option (List String) :=
  match raw with
  | none => none
  | some addrs => some (addrs.filter (fun a => !special.contains a))

/-- `TezosMapping.map_from_known_addresses` (tezos_mapping.py, lines
21-40): `none` reward addresses classify as the undefined-miner
sentinel, an emptied (all-special) list as the special-address
sentinel, and otherwise the single reward address is mapped through
the known addresses, falling back to the raw address. -/
def map_from_known_addresses (known : List (String × String))
    (special : List String) (raw : Option (List String)) : String :=
  match get_reward_addresses special raw with
  | none => "----- UNDEFINED MINER -----"
  | some [] => "----- SPECIAL ADDRESS -----"
  | some (a :: _) =>
    match lookupStr known a with
    | some name => name
    | none => a

/-- C8: a Tezos block whose only reward address is special classifies
as the special-address sentinel (not as the undefined-miner sentinel
and not as the raw address), while a block with no reward address at
all classifies as the undefined-miner sentinel. -/
theorem tezos_special_address_sentinel (known : List (String × String))
    (special : List String) (addr : String) (h : addr ∈ special) :
    map_from_known_addresses known special (some [addr]) =
        "----- SPECIAL ADDRESS -----" ∧
      "----- SPECIAL ADDRESS -----" ≠ "----- UNDEFINED MINER -----" ∧
      map_from_known_addresses known special none = "----- UNDEFINED MINER -----" := by
  refine ⟨?_, by decide, rfl⟩
  have hfil : List.filter (fun a => !special.contains a) [addr] = [] := by
    simp [h]
  simp only [map_from_known_addresses, get_reward_addresses]
  rw [hfil]

/-- Witness for C8: an address listed among the special addresses. -/
theorem tezos_special_address_sentinel_witness :
    map_from_known_addresses [("tz1a", "Pool A")] ["tz1treasury"]
        (some ["tz1treasury"]) = "----- SPECIAL ADDRESS -----" ∧
      "----- SPECIAL ADDRESS -----" ≠ "----- UNDEFINED MINER -----" ∧
      map_from_known_addresses [("tz1a", "Pool A")] ["tz1treasury"] none =
        "----- UNDEFINED MINER -----" :=
  tezos_special_address_sentinel [("tz1a", "Pool A")] ["tz1treasury"]
    "tz1treasury" (by decide)

/- ### Cardano classifier (src/mappings/cardano.py, lines 32-45) -/

/-- `entity.replace(',', '')` of cardano.py line 45: remove every comma
from the resolved entity name before it is used as the counting key. -/
def stripCommas (s : String) : String :=
  String.mk (s.toList.filter (fun c => c != ','))

/-- The per-transaction entity resolution of `CardanoMapping.process`
(cardano.py, lines 32-45): a truthy `coinbase_param` is first looked up
directly in `pool_links`, otherwise in the `coinbase_tags` identifiers
(taking that entry's display name), otherwise kept verbatim; with no
identifier, a truthy `coinbase_addresses` value is used, and failing
that the pre-decentralization sentinel.  Commas are stripped from the
result.  The empty string embeds Python falsiness of the fields. -/
def cardano_process_entity (pool_links tags : List (String × String))
    (param addrs : String) : String :=
  stripCommas
    (if param ≠ "" then
      match lookupStr pool_links param with
      | some owner => owner
      | none =>
        match lookupStr tags param with
        | some name => name
        | none => param
    else if addrs ≠ "" then addrs
    else "[!] IOG (core nodes pre-decentralization)")

/-- C3 counterexample: with identifiers `TAG1 → PoolX` and link mapping
`PoolX → OwnerY`, a block carrying the known identifier `TAG1` resolves
to the display name `PoolX` and is NOT passed through the link mapping,
even though `PoolX` is a claimant whose final owner is `OwnerY`. -/
theorem cardano_tag_not_linked :
    cardano_process_entity [("PoolX", "OwnerY")] [("TAG1", "PoolX")] "TAG1" "" =
        "PoolX" ∧
      lookupStr [("PoolX", "OwnerY")] "PoolX" = some "OwnerY" ∧
      "PoolX" ≠ "OwnerY" := by
  refine ⟨?_, by decide, by decide⟩
  decide

/-- C3 (amended): the Cardano classifier checks the raw identifier
itself against the link mapping first, resolving to that owner; only
when the identifier is not a claimant does it fall back to the known
identifiers, and the resulting display name is returned without being
passed through the link mapping again (commas stripped in both cases). -/
theorem cardano_identifier_resolution (pool_links tags : List (String × String))
    (param addrs owner name : String) (hp : param ≠ "") :
    (lookupStr pool_links param = some owner →
        cardano_process_entity pool_links tags param addrs = stripCommas owner) ∧
      (lookupStr pool_links param = none → lookupStr tags param = some name →
        cardano_process_entity pool_links tags param addrs = stripCommas name) := by
  constructor
  · intro h
    simp [cardano_process_entity, hp, h]
  · intro h1 h2
    simp [cardano_process_entity, hp, h1, h2]

/-- Witness for C3 (amended): both branches at concrete data. -/
theorem cardano_identifier_resolution_witness :
    cardano_process_entity [("TAG9", "OwnerZ")] [("TAG1", "PoolX")] "TAG9" "" =
        stripCommas "OwnerZ" ∧
      cardano_process_entity [("PoolX", "OwnerY")] [("TAG1", "PoolX")] "TAG1" "" =
        stripCommas "PoolX" :=
  ⟨(cardano_identifier_resolution [("TAG9", "OwnerZ")] [("TAG1", "PoolX")] "TAG9" ""
      "OwnerZ" "PoolX" (by decide)).1 (by decide),
   (cardano_identifier_resolution [("PoolX", "OwnerY")] [("TAG1", "PoolX")] "TAG1" ""
      "OwnerY" "PoolX" (by decide)).2 (by decide) (by decide)⟩

/- ### Per-entity block counts file (helper.py, lines 158-187) -/

/-- Decimal digits of a natural number, most significant first: the
digit sequence `str()` produces for a Python int (block counts are
non-negative). -/
def natDigits (n : Nat) : List Nat :=
  if _h : n < 10 then [n]
  else natDigits (n / 10) ++ [n % 10]
decreasing_by exact Nat.div_lt_self (by omega) (by omega)

/-- The character of one decimal digit. -/
def digitChar (d : Nat) : Char := Char.ofNat (48 + d)

/-- Inverse of `digitChar` on decimal digit characters, as `int()`
reads one character. -/
def charDigit (c : Char) : Option Nat :=
  if 48 ≤ c.toNat ∧ c.toNat ≤ 57 then some (c.toNat - 48) else none

/-- Value of a digit sequence, most significant first. -/
def digitsVal (ds : List Nat) : Nat := ds.foldl (fun a d => a * 10 + d) 0

/-- `str(n)` for a non-negative Python int. -/
def natToStr (n : Nat) : String := String.mk ((natDigits n).map digitChar)

/-- All-or-nothing traversal: the embedding of a Python comprehension
whose body may raise (one failing element fails the whole read). -/
def mapOpt (f : α → Option β) : List α → Option (List β)
  | [] => some []
  | a :: t =>
    match f a with
    | none => none
    | some b =>
      match mapOpt f t with
      | none => none
      | some bs => some (b :: bs)

/-- `int(s)` on the digit strings produced by the writer: fails on an
empty string or any non-digit character. -/
def parseDigits (cs : List Char) : Option Nat :=
  match cs with
  | [] => none
  | _ =>
    match mapOpt charDigit cs with
    | none => none
    | some ds => some (digitsVal ds)

/-- String-level wrapper of `parseDigits`. -/
def parseNat (s : String) : Option Nat := parseDigits s.toList

/-- `write_blocks_per_entity_to_file` (helper.py, lines 158-171),
modelled at the row/field level (the `csv` module's field quoting is a
lossless external codec): a header row `Entity \ Time period` followed
by the chunk labels, then one row per entity in insertion order with
its per-chunk counts stringified. -/
def write_blocks_per_entity (bpe : List (String × List Nat))
    (chunks : List String) : List (List String) :=
  ("Entity \\ Time period" :: chunks) :: bpe.map (fun p => p.1 :: p.2.map natToStr)

/-- One data line of `get_blocks_per_entity_from_file`:
`line[0]` is the entity, `[int(x) for x in line[1:]]` its counts
(an empty line or an unparsable cell raises, i.e. `none`). -/
def parseRow (row : List String) : Option (String × List Nat) :=
  match row with
  | [] => none
  | e :: cells =>
    match mapOpt parseNat cells with
    | none => none
    | some ns => some (e, ns)

/-- `get_blocks_per_entity_from_file` (helper.py, lines 174-187): drop
the first header cell to recover the chunk labels, then read every
remaining row into the per-entity counts mapping (rows in file order,
keys unique since the writer's input was a dict). -/
def get_blocks_per_entity (rows : List (List String)) :
    Option (List String × List (String × List Nat)) :=
  match rows with
  | [] => none
  | header :: rest =>
    match mapOpt parseRow rest with
    | none => none
    | some bpe => some (header.drop 1, bpe)

theorem digitsVal_append (ds : List Nat) (d : Nat) :
    digitsVal (ds ++ [d]) = digitsVal ds * 10 + d := by
  simp [digitsVal, List.foldl_append]

theorem digitsVal_natDigits (n : Nat) : digitsVal (natDigits n) = n := by
  induction n using Nat.strong_induction_on with
  | _ n ih =>
    rw [natDigits]
    split
    · simp [digitsVal]
    · rename_i h
      rw [digitsVal_append, ih (n / 10) (Nat.div_lt_self (by omega) (by omega))]
      omega

theorem natDigits_lt (n : Nat) : ∀ d ∈ natDigits n, d < 10 := by
  induction n using Nat.strong_induction_on with
  | _ n ih =>
    rw [natDigits]
    split
    · intro d hd
      simp at hd
      omega
    · intro d hd
      rw [List.mem_append] at hd
      rcases hd with hd | hd
      · exact ih (n / 10) (Nat.div_lt_self (by omega) (by omega)) d hd
      · simp at hd
        omega

theorem natDigits_ne_nil (n : Nat) : natDigits n ≠ [] := by
  rw [natDigits]
  split
  · simp
  · simp

theorem charDigit_digitChar (d : Nat) (h : d < 10) : charDigit (digitChar d) = some d := by
  interval_cases d <;> decide

theorem mapOpt_of_forall (f : β → Option α) (g : α → β) (l : List α)
    (h : ∀ a ∈ l, f (g a) = some a) : mapOpt f (l.map g) = some l := by
  induction l with
  | nil => rfl
  | cons a t ih =>
    have ha := h a (by simp)
    have iht := ih (fun x hx => h x (by simp [hx]))
    simp only [List.map_cons, mapOpt, ha, iht]

theorem parseNat_natToStr (n : Nat) : parseNat (natToStr n) = some n := by
  have hlt := natDigits_lt n
  have hval := digitsVal_natDigits n
  show parseDigits ((String.mk ((natDigits n).map digitChar)).toList) = some n
  have htl : (String.mk ((natDigits n).map digitChar)).toList =
      (natDigits n).map digitChar := rfl
  rw [htl]
  cases hD : natDigits n with
  | nil => exact absurd hD (natDigits_ne_nil n)
  | cons d ds =>
    rw [hD] at hlt hval
    have hmap : mapOpt charDigit ((d :: ds).map digitChar) = some (d :: ds) :=
      mapOpt_of_forall charDigit digitChar (d :: ds)
        (fun a ha => charDigit_digitChar a (hlt a ha))
    simp only [List.map_cons] at hmap ⊢
    simp only [parseDigits, hmap, hval]

theorem parseRow_roundtrip (p : String × List Nat) :
    parseRow (p.1 :: p.2.map natToStr) = some p := by
  have h : mapOpt parseNat (p.2.map natToStr) = some p.2 :=
    mapOpt_of_forall parseNat natToStr p.2 (fun a _ => parseNat_natToStr a)
  simp only [parseRow, h]

/-- C9: writing any per-entity counts mapping (unique keys, insertion
order) with any chunk labels and reading the rows back reproduces the
identical chunk labels and identical per-entity per-chunk integer
counts, and the written header row is `Entity \ Time period` followed
by the chunk labels. -/
theorem blocks_per_entity_roundtrip (bpe : List (String × List Nat))
    (chunks : List String) (_hkeys : (bpe.map Prod.fst).Nodup) :
    get_blocks_per_entity (write_blocks_per_entity bpe chunks) =
        some (chunks, bpe) ∧
      (write_blocks_per_entity bpe chunks).head? =
        some ("Entity \\ Time period" :: chunks) := by
  constructor
  · have h : mapOpt parseRow (bpe.map (fun p => p.1 :: p.2.map natToStr)) = some bpe :=
      mapOpt_of_forall parseRow (fun p => p.1 :: p.2.map natToStr) bpe
        (fun p _ => parseRow_roundtrip p)
    simp only [write_blocks_per_entity, get_blocks_per_entity, h]
    simp
  · rfl

/-- Witness for C9: a two-entity, two-chunk table survives the
round trip. -/
theorem blocks_per_entity_roundtrip_witness :
    get_blocks_per_entity (write_blocks_per_entity
        [("Pool A", [3, 1]), ("Pool B", [0, 2])] ["Jan-2021", "Feb-2021"]) =
        some (["Jan-2021", "Feb-2021"], [("Pool A", [3, 1]), ("Pool B", [0, 2])]) ∧
      (write_blocks_per_entity [("Pool A", [3, 1]), ("Pool B", [0, 2])]
          ["Jan-2021", "Feb-2021"]).head? =
        some ("Entity \\ Time period" :: ["Jan-2021", "Feb-2021"]) :=
  blocks_per_entity_roundtrip [("Pool A", [3, 1]), ("Pool B", [0, 2])]
    ["Jan-2021", "Feb-2021"] (by decide)
